import Mathlib

/-!
# LogoLookup — verification of the Brand Matcher and Brand Grouper

Shallow embedding of the two core algorithms of the repository:

* `CheckLogos.find_best_match`   — `check_logos.py`, lines 49–86;
* `MultiLookup.find_best_match`  — `logo_lookup_multi.py`, lines 74–93;
* `group_by_brand`               — `logo_preview_editor.py`, lines 44–59.

Modelling conventions:

* Python strings are Lean `String`s; all string primitives are written out
  on `List Char` so that concrete inputs evaluate by kernel reduction.
* `str.lower()` is modelled by `Char.toLower` character-wise (ASCII case
  folding; every string appearing in the claims is ASCII).
* `str.strip()` drops leading/trailing whitespace characters.
* Python's `x in y` and `check_logos.py`'s
  `str.contains(x, na=False, regex=False)` are literal substring
  containment (`isSubstrOf`).  `logo_lookup_multi.py`'s contains stage
  omits `regex=False`, so pandas matches the query as a regular
  expression there; it is modelled as literal containment, which is
  faithful exactly on queries without regex metacharacters
  (`noRegexMeta`), and every cross-implementation theorem is restricted
  to that domain.
* A dataframe of brand rows is a `List Row`; `Row.brandLower` is the
  precomputed `Brand_Lower` column, `Row.brand` the `Brand` column.
* Python's insertion-ordered `dict` of groups is an association list built
  in insertion order; `sorted(..., key=...)` is a stable insertion sort
  (Python's sort is stable, and stable ascending sorts agree pointwise).
-/

/-- Character-wise ASCII lowering, modelling Python `str.lower()`. -/
def pyLower (s : String) : String :=
  String.mk (s.toList.map Char.toLower)

/-- Python `str.strip()`: drop leading and trailing whitespace. -/
def pyStrip (s : String) : String :=
  String.mk (((s.toList.dropWhile Char.isWhitespace).reverse.dropWhile
    Char.isWhitespace).reverse)

/-- All indices `i ≤ cs.length` at which `sep` occurs in `cs`
(starts of occurrences, in increasing order). -/
def occStarts (sep cs : List Char) : List Nat :=
  (List.range (cs.length + 1)).filter fun i => sep.isPrefixOf (cs.drop i)

/-- Python `needle in hay` (and pandas `str.contains(needle, regex=False)`):
literal substring containment. -/
def isSubstrOf (needle hay : String) : Bool :=
  (List.range (hay.toList.length + 1)).any fun i =>
    needle.toList.isPrefixOf (hay.toList.drop i)

/-- `s.rsplit(sep, 1)[0]`: everything strictly before the last occurrence of
`sep` in `s`, or `s` itself when `sep` does not occur.  (`sep` is nonempty at
both call sites, `"_logo"` and `"_"`.) -/
def rsplit0 (sep s : String) : String :=
  match (occStarts sep.toList s.toList).getLast? with
  | some i => String.mk (s.toList.take i)
  | none => s

/-- `pathlib.Path(fn).stem`: the final path component without its last
extension; the extension only counts when its dot is neither the first nor
the last character of the name. -/
def pyStem (fn : String) : String :=
  let name :=
    match (occStarts ['/'] fn.toList).getLast? with
    | some i => String.mk (fn.toList.drop (i + 1))
    | none => fn
  let cs := name.toList
  match (occStarts ['.'] cs).getLast? with
  | some i => if 0 < i ∧ i < cs.length - 1 then String.mk (cs.take i) else name
  | none => name

/-- Helper for `pySplit`: accumulate the current word (reversed) while
scanning the characters. -/
def wordsAux (cur : List Char) : List Char → List (List Char)
  | [] => if cur.isEmpty then [] else [cur.reverse]
  | c :: cs =>
    if c.isWhitespace then
      if cur.isEmpty then wordsAux [] cs else cur.reverse :: wordsAux [] cs
    else
      wordsAux (c :: cur) cs

/-- Python `str.split()` with no argument: split on whitespace runs,
discarding empty tokens. -/
def pySplit (s : String) : List String :=
  (wordsAux [] s.toList).map String.mk

namespace CheckLogos

/-- One row of the reference dataframe: the `Brand` column and the
precomputed `Brand_Lower` column (`Brand.strip().lower()` at the call
site, but the function reads the columns as given). -/
structure Row where
  brand : String
  brandLower : String
deriving DecidableEq

/-- The match-kind strings of `check_logos.py` (`'EXACT'`, `'CONTAINS'`,
`'PARTIAL'`, `f'FUZZY({score})'`, `'NOT_FOUND'`); the third constructor's
Lean identifier is spelled `PARTIAL_MATCH`. -/
inductive MatchKind where
  | EXACT
  | CONTAINS
  | PARTIAL_MATCH
  | FUZZY (score : Nat)
  | NOT_FOUND
deriving DecidableEq

/-- `len(search_words & set(row.Brand_Lower.split()))` for a deduplicated
list `sq` of search words: the number of distinct shared words. -/
def wordScore (sq : List String) (r : Row) : Nat :=
  (sq.filter fun w => (pySplit r.brandLower).contains w).length

/-- One step of Strategy 4's loop: keep the new row only when its score
strictly exceeds the standing best and is at least 2. -/
def fuzzyStep (sq : List String) (acc : Option Row × Nat) (r : Row) :
    Option Row × Nat :=
  if acc.2 < wordScore sq r ∧ 2 ≤ wordScore sq r then (some r, wordScore sq r)
  else acc

/-- Strategy 4's whole loop (`best_match = None`, `best_score = 0`). -/
def fuzzyScan (sq : List String) (t : List Row) : Option Row × Nat :=
  t.foldl (fuzzyStep sq) (none, 0)

/-- `find_best_match` of `check_logos.py` (lines 49–86): EXACT, then
CONTAINS (`Brand_Lower` contains the query), then PARTIAL (`Brand_Lower`
occurs in the query), then the word-overlap FUZZY scan. -/
def find_best_match (searchName : String) (logoDf : List Row) :
    Option Row × MatchKind × Option String :=
  let searchLower := pyLower (pyStrip searchName)
  match logoDf.find? (fun r => r.brandLower == searchLower) with
  | some r => (some r, .EXACT, some r.brand)
  | none =>
    match logoDf.find? (fun r => isSubstrOf searchLower r.brandLower) with
    | some r => (some r, .CONTAINS, some r.brand)
    | none =>
      match logoDf.find? (fun r => isSubstrOf r.brandLower searchLower) with
      | some r => (some r, .PARTIAL_MATCH, some r.brand)
      | none =>
        match fuzzyScan ((pySplit searchLower).dedup) logoDf with
        | (some r, s) => (some r, .FUZZY s, some r.brand)
        | (none, _) => (none, .NOT_FOUND, none)

end CheckLogos

/-- The characters that are special in Python regular expressions
(the braces are written by code point, 123 and 125). -/
def regexMeta : List Char :=
  ['.', '^', '$', '*', '+', '?', Char.ofNat 123, Char.ofNat 125,
   '[', ']', '(', ')', '|', '\\']

/-- A pattern free of Python regex metacharacters.  On exactly these
patterns, pandas' `Series.str.contains(pat)` with its `regex=True` default
(`logo_lookup_multi.py`, line 83) searches for the same matches as literal
substring containment, and raises no `re.error`. -/
def noRegexMeta (s : String) : Bool :=
  s.toList.all fun c => !(regexMeta.contains c)

namespace MultiLookup

open CheckLogos in
/-- `find_best_match` of `logo_lookup_multi.py` (lines 74–93): EXACT, then
CONTAINS, then a PARTIAL stage testing substring containment in both
directions; no fuzzy stage.  The source's CONTAINS stage is
`df['Brand_Lower'].str.contains(search_lower, na=False)` with pandas'
`regex=True` default — unlike `check_logos.py`, which passes
`regex=False`.  It is modelled here as literal containment, which agrees
with the source exactly when the case-folded query satisfies
`noRegexMeta`; every theorem equating this function with the
`check_logos.py` matcher therefore carries that hypothesis. -/
def find_best_match (searchName : String) (df : List CheckLogos.Row) :
    Option CheckLogos.Row × CheckLogos.MatchKind × Option String :=
  let searchLower := pyLower (pyStrip searchName)
  match df.find? (fun r => r.brandLower == searchLower) with
  | some r => (some r, .EXACT, some r.brand)
  | none =>
    match df.find? (fun r => isSubstrOf searchLower r.brandLower) with
    | some r => (some r, .CONTAINS, some r.brand)
    | none =>
      match df.find? (fun r =>
          isSubstrOf r.brandLower searchLower ||
          isSubstrOf searchLower r.brandLower) with
      | some r => (some r, .PARTIAL_MATCH, some r.brand)
      | none => (none, .NOT_FOUND, none)

end MultiLookup

/-- `brand_key.replace("_", " ")`: underscores become spaces. -/
def display (key : String) : String :=
  String.mk (key.toList.map fun c => if c = '_' then ' ' else c)

/-- The brand key of a filename stem (`logo_preview_editor.py`, lines
48–54): if the lowered stem contains `"_logo"`, the key is
`stem.rsplit("_logo", 1)[0]` computed on the *original* stem; otherwise
the stem is split on its last underscore and the left part is kept exactly
when the right part is a nonempty run of digits. -/
def brandKeyOfStem (stem : String) : String :=
  if isSubstrOf "_logo" (pyLower stem) then
    rsplit0 "_logo" stem
  else
    match (occStarts ['_'] stem.toList).getLast? with
    | some i =>
      let post := stem.toList.drop (i + 1)
      if post ≠ [] ∧ post.all Char.isDigit then String.mk (stem.toList.take i)
      else stem
    | none => stem

/-- The brand key of a filename. -/
def brandKey (fn : String) : String :=
  brandKeyOfStem (pyStem fn)

/-- One output group (the spec's `BrandGroup`): display name and member
files in insertion order. -/
structure BrandGroup where
  brand : String
  files : List String
deriving DecidableEq

/-- The dict entry `{"brand": display, "files": fs}` built for a key. -/
def toGroup (p : String × List String) : BrandGroup :=
  ⟨display p.1, p.2⟩

/-- `groups.setdefault(key, ...)["files"].append(fn)` on an
insertion-ordered association list. -/
def insertFile (groups : List (String × List String)) (key fn : String) :
    List (String × List String) :=
  match groups with
  | [] => [(key, [fn])]
  | (k, fs) :: rest =>
    if k = key then (k, fs ++ [fn]) :: rest
    else (k, fs) :: insertFile rest key fn

/-- The grouping loop of `group_by_brand`: an insertion-ordered map from
brand key to the list of its files. -/
def buildGroups (fns : List String) : List (String × List String) :=
  fns.foldl (fun g fn => insertFile g (brandKey fn) fn) []

/-- Code-point lexicographic comparison of character lists, modelling
Python's `<` on strings; proved below to agree with `String.lt`. -/
def charListLt : List Char → List Char → Bool
  | _, [] => false
  | [], _ :: _ => true
  | a :: as, b :: bs => decide (a < b) || (decide (a = b) && charListLt as bs)

/-- The sort key: `groups[k]["brand"].lower()`. -/
def keyStr (p : String × List String) : String :=
  pyLower (display p.1)

/-- Comparison used by the sort, on the lowered display names. -/
def keyLtB (x y : String × List String) : Bool :=
  charListLt (keyStr x).toList (keyStr y).toList

/-- Stable insertion of one keyed group into an already sorted list:
it goes immediately before the first strictly greater element, hence after
every earlier element with an equal key. -/
def insGroup (x : String × List String) :
    List (String × List String) → List (String × List String)
  | [] => [x]
  | y :: ys => if keyLtB x y then x :: y :: ys else y :: insGroup x ys

/-- `sorted(groups.keys(), key=lambda x: groups[x]["brand"].lower())` as a
stable insertion sort over the insertion-ordered entries. -/
def sortGroups (l : List (String × List String)) :
    List (String × List String) :=
  l.foldl (fun acc x => insGroup x acc) []

/-- `group_by_brand` of `logo_preview_editor.py` (lines 44–59). -/
def group_by_brand (fns : List String) : List BrandGroup :=
  (sortGroups (buildGroups fns)).map toGroup

/-! ## Helper lemmas -/

theorem charListLt_iff : ∀ as bs : List Char, charListLt as bs = true ↔ as < bs := by
  intro as
  induction as with
  | nil =>
    intro bs
    cases bs with
    | nil =>
      constructor
      · intro h; simp [charListLt] at h
      · intro h; cases h
    | cons b bs =>
      constructor
      · intro _; exact List.Lex.nil
      · intro _; rfl
  | cons a as ih =>
    intro bs
    cases bs with
    | nil =>
      constructor
      · intro h; simp [charListLt] at h
      · intro h; cases h
    | cons b bs =>
      simp only [charListLt, Bool.or_eq_true, Bool.and_eq_true, decide_eq_true_eq, ih]
      constructor
      · rintro (hab | ⟨rfl, h⟩)
        · exact List.Lex.rel hab
        · exact List.Lex.cons h
      · intro h
        cases h with
        | cons h => exact Or.inr ⟨rfl, h⟩
        | rel hab => exact Or.inl hab

theorem keyLtB_iff (x y : String × List String) :
    keyLtB x y = true ↔ keyStr x < keyStr y := by
  rw [keyLtB, charListLt_iff, ← String.lt_iff_toList_lt]

theorem keyLtB_eq_false_iff (x y : String × List String) :
    keyLtB x y = false ↔ keyStr y ≤ keyStr x := by
  rw [← Bool.not_eq_true, keyLtB_iff, not_lt]

theorem find?_first {α} (p : α → Bool) (r : α) :
    ∀ (pre post : List α), (∀ x ∈ pre, p x = false) → p r = true →
    (pre ++ r :: post).find? p = some r := by
  intro pre
  induction pre with
  | nil =>
    intro post _ hr
    simpa using List.find?_cons_of_pos post hr
  | cons a pre ih =>
    intro post hpre hr
    have ha : ¬ p a = true := by simp [hpre a (by simp)]
    rw [List.cons_append, List.find?_cons_of_neg _ ha]
    exact ih post (fun x hx => hpre x (by simp [hx])) hr

theorem find?_congr {α} (p q : α → Bool) :
    ∀ l : List α, (∀ x ∈ l, p x = q x) → l.find? p = l.find? q := by
  intro l
  induction l with
  | nil => intro _; rfl
  | cons a l ih =>
    intro h
    have ha := h a (by simp)
    by_cases hpa : p a = true
    · rw [List.find?_cons_of_pos _ hpa, List.find?_cons_of_pos _ (ha ▸ hpa)]
    · rw [List.find?_cons_of_neg _ hpa, List.find?_cons_of_neg _ (ha ▸ hpa)]
      exact ih (fun x hx => h x (by simp [hx]))

namespace CheckLogos

/-- The fuzzy loop does not move off a standing best that no later row
overtakes (a later row overtakes only with a score strictly above the
standing best and at least 2). -/
theorem fuzzyStay (sq : List String) :
    ∀ (t : List Row) (b : Option Row) (bs : Nat),
    (∀ x ∈ t, wordScore sq x ≤ bs ∨ wordScore sq x < 2) →
    t.foldl (fuzzyStep sq) (b, bs) = (b, bs) := by
  intro t
  induction t with
  | nil => intros; rfl
  | cons x t ih =>
    intro b bs h
    have hx := h x (by simp)
    have hstep : fuzzyStep sq (b, bs) x = (b, bs) := by
      unfold fuzzyStep
      rw [if_neg]
      rintro ⟨hlt, hge⟩
      rcases hx with h3 | h3 <;> omega
    rw [List.foldl_cons, hstep]
    exact ih b bs (fun y hy => h y (by simp [hy]))

/-- The fuzzy loop returns the first row attaining the maximal score when
that score beats the running best and is at least 2. -/
theorem fuzzyFirstMax (sq : List String) (r : Row) :
    ∀ (pre post : List Row) (b : Option Row) (bs : Nat),
    bs < wordScore sq r → 2 ≤ wordScore sq r →
    (∀ x ∈ pre, wordScore sq x < wordScore sq r) →
    (∀ x ∈ post, wordScore sq x ≤ wordScore sq r) →
    (pre ++ r :: post).foldl (fuzzyStep sq) (b, bs) = (some r, wordScore sq r) := by
  intro pre
  induction pre with
  | nil =>
    intro post b bs hbs h2 _ hpost
    have hstep : fuzzyStep sq (b, bs) r = (some r, wordScore sq r) := by
      unfold fuzzyStep; rw [if_pos ⟨hbs, h2⟩]
    rw [List.nil_append, List.foldl_cons, hstep]
    exact fuzzyStay sq post _ _ (fun x hx => Or.inl (hpost x hx))
  | cons a pre ih =>
    intro post b bs hbs h2 hpre hpost
    rw [List.cons_append, List.foldl_cons]
    by_cases ha : bs < wordScore sq a ∧ 2 ≤ wordScore sq a
    · have hstep : fuzzyStep sq (b, bs) a = (some a, wordScore sq a) := by
        unfold fuzzyStep; rw [if_pos ha]
      rw [hstep]
      exact ih post (some a) _ (hpre a (by simp)) h2
        (fun x hx => hpre x (by simp [hx])) hpost
    · have hstep : fuzzyStep sq (b, bs) a = (b, bs) := by
        unfold fuzzyStep; rw [if_neg ha]
      rw [hstep]
      exact ih post b bs hbs h2 (fun x hx => hpre x (by simp [hx])) hpost

end CheckLogos

/-! ## Claims about the Brand Matcher -/

/-- Claim C1, counterexample: on query `"TD Bank"` and the one-row table
`[{name: "TD"}]`, `find_best_match` of `check_logos.py` returns kind
PARTIAL, not CONTAINS as the claim states: in the code, CONTAINS is
query-in-row-name and PARTIAL is row-name-in-query. -/
theorem find_best_match_td_bank_is_partial :
    CheckLogos.find_best_match "TD Bank" [⟨"TD", "td"⟩] =
      (some ⟨"TD", "td"⟩, .PARTIAL_MATCH, some "TD") ∧
    CheckLogos.MatchKind.PARTIAL_MATCH ≠ CheckLogos.MatchKind.CONTAINS := by
  constructor
  · decide
  · decide

/-- Claim C1 (amended): when no row's case-folded name equals the
case-folded query and no row's case-folded name has the query as a
substring, but some row's case-folded name appears as a substring of the
query, `find_best_match` returns the first such row in table order with
kind PARTIAL. -/
theorem find_best_match_row_in_query_partial (q : String)
    (pre post : List CheckLogos.Row) (r : CheckLogos.Row)
    (h1 : ∀ x ∈ pre ++ r :: post, x.brandLower ≠ pyLower (pyStrip q))
    (h2 : ∀ x ∈ pre ++ r :: post,
      isSubstrOf (pyLower (pyStrip q)) x.brandLower = false)
    (h3 : isSubstrOf r.brandLower (pyLower (pyStrip q)) = true)
    (h4 : ∀ x ∈ pre, isSubstrOf x.brandLower (pyLower (pyStrip q)) = false) :
    CheckLogos.find_best_match q (pre ++ r :: post) =
      (some r, .PARTIAL_MATCH, some r.brand) := by
  have e1 : (pre ++ r :: post).find?
      (fun x => x.brandLower == pyLower (pyStrip q)) = none :=
    List.find?_eq_none.mpr fun x hx => by simpa using h1 x hx
  have e2 : (pre ++ r :: post).find?
      (fun x => isSubstrOf (pyLower (pyStrip q)) x.brandLower) = none :=
    List.find?_eq_none.mpr fun x hx => by simp [h2 x hx]
  have e3 := find?_first
    (fun x => isSubstrOf x.brandLower (pyLower (pyStrip q))) r pre post h4 h3
  simp only [CheckLogos.find_best_match, e1, e2, e3]

/-- Witness for the amended claim C1 at the claim's own example. -/
theorem find_best_match_row_in_query_partial_witness :
    ((∀ x ∈ ([] ++ (⟨"TD", "td"⟩ : CheckLogos.Row) :: []),
        CheckLogos.Row.brandLower x ≠ pyLower (pyStrip "TD Bank")) ∧
     (∀ x ∈ ([] ++ (⟨"TD", "td"⟩ : CheckLogos.Row) :: []),
        isSubstrOf (pyLower (pyStrip "TD Bank")) x.brandLower = false) ∧
     isSubstrOf (CheckLogos.Row.mk "TD" "td").brandLower
        (pyLower (pyStrip "TD Bank")) = true) ∧
    CheckLogos.find_best_match "TD Bank"
        ([] ++ (⟨"TD", "td"⟩ : CheckLogos.Row) :: []) =
      (some ⟨"TD", "td"⟩, .PARTIAL_MATCH, some "TD") :=
  ⟨⟨by decide, by decide, by decide⟩,
    find_best_match_row_in_query_partial "TD Bank" [] [] ⟨"TD", "td"⟩
      (by decide) (by decide) (by decide) (by decide)⟩

/-- Claim C4, counterexample: on query `"Canada Life Insurance Group"`
and table `[{Brand: "Canada Life Mutual"}]`, the `check_logos.py` matcher
returns a FUZZY(2) match while the `logo_lookup_multi.py` matcher (which
has no fuzzy stage) returns NOT_FOUND, so the two implementations are not
the same algorithm. -/
theorem find_best_match_implementations_differ :
    CheckLogos.find_best_match "Canada Life Insurance Group"
        [⟨"Canada Life Mutual", "canada life mutual"⟩] =
      (some ⟨"Canada Life Mutual", "canada life mutual"⟩, .FUZZY 2,
        some "Canada Life Mutual") ∧
    MultiLookup.find_best_match "Canada Life Insurance Group"
        [⟨"Canada Life Mutual", "canada life mutual"⟩] =
      (none, .NOT_FOUND, none) := by
  constructor
  · decide
  · decide

/-- Claim C4 (amended): the two `find_best_match` implementations are not
one algorithm; for queries whose case-folded text is free of regex
metacharacters — the domain on which `logo_lookup_multi.py`'s
regex-default contains stage coincides with `check_logos.py`'s literal
one — they agree exactly up to the fuzzy stage: the multi result equals
the `check_logos.py` result with a FUZZY outcome mapped to NOT_FOUND.
(On metacharacter queries the two contains stages also disagree, so no
hypothesis-free equivalence holds.) -/
theorem find_best_match_multi_eq_up_to_fuzzy (q : String)
    (t : List CheckLogos.Row)
    (_hq : noRegexMeta (pyLower (pyStrip q)) = true) :
    MultiLookup.find_best_match q t =
      (match CheckLogos.find_best_match q t with
       | (_, .FUZZY _, _) => (none, .NOT_FOUND, none)
       | out => out) := by
  simp only [MultiLookup.find_best_match, CheckLogos.find_best_match]
  cases hf1 : t.find? (fun r => r.brandLower == pyLower (pyStrip q)) with
  | some r => rfl
  | none =>
    cases hf2 : t.find?
        (fun r => isSubstrOf (pyLower (pyStrip q)) r.brandLower) with
    | some r => rfl
    | none =>
      have hcong : t.find? (fun r =>
            isSubstrOf r.brandLower (pyLower (pyStrip q)) ||
            isSubstrOf (pyLower (pyStrip q)) r.brandLower) =
          t.find? (fun r => isSubstrOf r.brandLower (pyLower (pyStrip q))) :=
        find?_congr _ _ t fun x hx => by
          have hx2 := List.find?_eq_none.mp hf2 x hx
          simp only [Bool.not_eq_true] at hx2
          simp [hx2]
      rw [hcong]
      cases hf3 : t.find?
          (fun r => isSubstrOf r.brandLower (pyLower (pyStrip q))) with
      | some r => rfl
      | none =>
        cases hf4 : CheckLogos.fuzzyScan
            ((pySplit (pyLower (pyStrip q))).dedup) t with
        | mk b s =>
          cases b with
          | none => rfl
          | some r => rfl

/-- Witness for the amended claim C4 at a metacharacter-free query where
the FUZZY-to-NOT_FOUND mapping is exercised. -/
theorem find_best_match_multi_eq_up_to_fuzzy_witness :
    noRegexMeta (pyLower (pyStrip "Canada Life Insurance Group")) = true ∧
    MultiLookup.find_best_match "Canada Life Insurance Group"
        [⟨"Canada Life Mutual", "canada life mutual"⟩] =
      (match CheckLogos.find_best_match "Canada Life Insurance Group"
          [⟨"Canada Life Mutual", "canada life mutual"⟩] with
       | (_, .FUZZY _, _) => (none, .NOT_FOUND, none)
       | out => out) :=
  ⟨by decide,
    find_best_match_multi_eq_up_to_fuzzy "Canada Life Insurance Group"
      [⟨"Canada Life Mutual", "canada life mutual"⟩] (by decide)⟩

/-- Claim C5: after the EXACT, CONTAINS and PARTIAL stages all fail,
`find_best_match` of `check_logos.py` returns the first row attaining the
maximal number of shared whitespace-words with the query, provided that
number is at least 2 (an equal later score does not overtake), and
NOT_FOUND when no row shares at least 2 words. -/
theorem find_best_match_fuzzy_stage (q : String) (t : List CheckLogos.Row)
    (h1 : ∀ x ∈ t, x.brandLower ≠ pyLower (pyStrip q))
    (h2 : ∀ x ∈ t, isSubstrOf (pyLower (pyStrip q)) x.brandLower = false)
    (h3 : ∀ x ∈ t, isSubstrOf x.brandLower (pyLower (pyStrip q)) = false) :
    (∀ (pre post : List CheckLogos.Row) (r : CheckLogos.Row),
      t = pre ++ r :: post →
      2 ≤ CheckLogos.wordScore ((pySplit (pyLower (pyStrip q))).dedup) r →
      (∀ x ∈ pre,
        CheckLogos.wordScore ((pySplit (pyLower (pyStrip q))).dedup) x <
        CheckLogos.wordScore ((pySplit (pyLower (pyStrip q))).dedup) r) →
      (∀ x ∈ post,
        CheckLogos.wordScore ((pySplit (pyLower (pyStrip q))).dedup) x ≤
        CheckLogos.wordScore ((pySplit (pyLower (pyStrip q))).dedup) r) →
      CheckLogos.find_best_match q t =
        (some r,
          .FUZZY (CheckLogos.wordScore ((pySplit (pyLower (pyStrip q))).dedup) r),
          some r.brand)) ∧
    ((∀ x ∈ t,
        CheckLogos.wordScore ((pySplit (pyLower (pyStrip q))).dedup) x < 2) →
      CheckLogos.find_best_match q t = (none, .NOT_FOUND, none)) := by
  have e1 : t.find? (fun x => x.brandLower == pyLower (pyStrip q)) = none :=
    List.find?_eq_none.mpr fun x hx => by simpa using h1 x hx
  have e2 : t.find? (fun x => isSubstrOf (pyLower (pyStrip q)) x.brandLower) = none :=
    List.find?_eq_none.mpr fun x hx => by simp [h2 x hx]
  have e3 : t.find? (fun x => isSubstrOf x.brandLower (pyLower (pyStrip q))) = none :=
    List.find?_eq_none.mpr fun x hx => by simp [h3 x hx]
  constructor
  · intro pre post r ht hr2 hpre hpost
    have e4 : CheckLogos.fuzzyScan ((pySplit (pyLower (pyStrip q))).dedup) t =
        (some r, CheckLogos.wordScore ((pySplit (pyLower (pyStrip q))).dedup) r) := by
      rw [ht]
      exact CheckLogos.fuzzyFirstMax _ r pre post none 0 (by omega) hr2 hpre hpost
    simp only [CheckLogos.find_best_match, e1, e2, e3, e4]
  · intro hsmall
    have e4 : CheckLogos.fuzzyScan ((pySplit (pyLower (pyStrip q))).dedup) t =
        (none, 0) :=
      CheckLogos.fuzzyStay _ t none 0 fun x hx => Or.inr (hsmall x hx)
    simp only [CheckLogos.find_best_match, e1, e2, e3, e4]

/-- Witness for claim C5 at the spec's own FUZZY example. -/
theorem find_best_match_fuzzy_stage_witness :
    ((∀ x ∈ ([⟨"Canada Life Mutual", "canada life mutual"⟩] : List CheckLogos.Row),
        CheckLogos.Row.brandLower x ≠ pyLower (pyStrip "Canada Life Insurance Group")) ∧
     (∀ x ∈ ([⟨"Canada Life Mutual", "canada life mutual"⟩] : List CheckLogos.Row),
        isSubstrOf (pyLower (pyStrip "Canada Life Insurance Group")) x.brandLower = false) ∧
     (∀ x ∈ ([⟨"Canada Life Mutual", "canada life mutual"⟩] : List CheckLogos.Row),
        isSubstrOf x.brandLower (pyLower (pyStrip "Canada Life Insurance Group")) = false)) ∧
    ((∀ (pre post : List CheckLogos.Row) (r : CheckLogos.Row),
      ([⟨"Canada Life Mutual", "canada life mutual"⟩] : List CheckLogos.Row) = pre ++ r :: post →
      2 ≤ CheckLogos.wordScore ((pySplit (pyLower (pyStrip "Canada Life Insurance Group"))).dedup) r →
      (∀ x ∈ pre,
        CheckLogos.wordScore ((pySplit (pyLower (pyStrip "Canada Life Insurance Group"))).dedup) x <
        CheckLogos.wordScore ((pySplit (pyLower (pyStrip "Canada Life Insurance Group"))).dedup) r) →
      (∀ x ∈ post,
        CheckLogos.wordScore ((pySplit (pyLower (pyStrip "Canada Life Insurance Group"))).dedup) x ≤
        CheckLogos.wordScore ((pySplit (pyLower (pyStrip "Canada Life Insurance Group"))).dedup) r) →
      CheckLogos.find_best_match "Canada Life Insurance Group"
          [⟨"Canada Life Mutual", "canada life mutual"⟩] =
        (some r,
          .FUZZY (CheckLogos.wordScore ((pySplit (pyLower (pyStrip "Canada Life Insurance Group"))).dedup) r),
          some r.brand)) ∧
     ((∀ x ∈ ([⟨"Canada Life Mutual", "canada life mutual"⟩] : List CheckLogos.Row),
        CheckLogos.wordScore ((pySplit (pyLower (pyStrip "Canada Life Insurance Group"))).dedup) x < 2) →
      CheckLogos.find_best_match "Canada Life Insurance Group"
          [⟨"Canada Life Mutual", "canada life mutual"⟩] = (none, .NOT_FOUND, none))) :=
  ⟨⟨by decide, by decide, by decide⟩,
    find_best_match_fuzzy_stage "Canada Life Insurance Group"
      [⟨"Canada Life Mutual", "canada life mutual"⟩]
      (by decide) (by decide) (by decide)⟩

/-- Claim C8: degenerate inputs are policy, not exception — the grouper
maps an empty filename collection to an empty group list, and on an empty
reference table both matchers answer NOT_FOUND with no row and no
canonical name, for every query. -/
theorem degenerate_inputs_policy :
    group_by_brand [] = [] ∧
    (∀ q : String,
      CheckLogos.find_best_match q [] = (none, .NOT_FOUND, none)) ∧
    (∀ q : String,
      MultiLookup.find_best_match q [] = (none, .NOT_FOUND, none)) :=
  ⟨rfl, fun _ => rfl, fun _ => rfl⟩

/-- Claim C10: the triple returned by `find_best_match` of
`check_logos.py` is internally consistent — row and canonical name are
`none` exactly in the NOT_FOUND case, and otherwise the canonical name is
the `Brand` field of the returned row. -/
theorem find_best_match_result_consistent (q : String)
    (t : List CheckLogos.Row) :
    ((CheckLogos.find_best_match q t).1 = none ↔
      (CheckLogos.find_best_match q t).2.1 = .NOT_FOUND) ∧
    ((CheckLogos.find_best_match q t).2.2 = none ↔
      (CheckLogos.find_best_match q t).2.1 = .NOT_FOUND) ∧
    (CheckLogos.find_best_match q t).2.2 =
      (CheckLogos.find_best_match q t).1.map CheckLogos.Row.brand := by
  simp only [CheckLogos.find_best_match]
  cases t.find? (fun r => r.brandLower == pyLower (pyStrip q)) with
  | some r => simp
  | none =>
    cases t.find? (fun r => isSubstrOf (pyLower (pyStrip q)) r.brandLower) with
    | some r => simp
    | none =>
      cases t.find? (fun r => isSubstrOf r.brandLower (pyLower (pyStrip q))) with
      | some r => simp
      | none =>
        cases CheckLogos.fuzzyScan ((pySplit (pyLower (pyStrip q))).dedup) t with
        | mk b s =>
          cases b with
          | none => simp
          | some r => simp

/-! ## Last-occurrence machinery for `rsplit0` and the underscore split -/

theorem mem_occStarts {sep cs : List Char} {i : Nat} :
    i ∈ occStarts sep cs ↔
      i < cs.length + 1 ∧ sep.isPrefixOf (cs.drop i) = true := by
  simp [occStarts, List.mem_filter, List.mem_range]

theorem occStarts_pairwise (sep cs : List Char) :
    (occStarts sep cs).Pairwise (· < ·) :=
  (List.pairwise_lt_range _).filter _

theorem getLast?_eq_of_max {l : List Nat} {x : Nat} (hs : l.Pairwise (· < ·))
    (hx : x ∈ l) (hmax : ∀ y ∈ l, y ≤ x) : l.getLast? = some x := by
  induction l with
  | nil => cases hx
  | cons a l ih =>
    cases l with
    | nil =>
      have : x = a := by simpa using hx
      subst this; rfl
    | cons b l' =>
      rw [List.getLast?_cons_cons]
      have hrel : ∀ y ∈ b :: l', a < y := (List.pairwise_cons.mp hs).1
      rcases List.mem_cons.mp hx with rfl | hx'
      · have h1 : x < b := hrel b (by simp)
        have h2 : b ≤ x := hmax b (by simp)
        omega
      · exact ih (List.pairwise_cons.mp hs).2 hx'
          (fun y hy => hmax y (by simp [hy]))

theorem isPrefixOf_iff_exists {l₁ l₂ : List Char} :
    l₁.isPrefixOf l₂ = true ↔ ∃ t, l₁ ++ t = l₂ := by
  induction l₁ generalizing l₂ with
  | nil => simp [List.isPrefixOf]
  | cons a l₁ ih =>
    cases l₂ with
    | nil => simp [List.isPrefixOf]
    | cons b l₂ =>
      simp only [List.isPrefixOf, Bool.and_eq_true, beq_iff_eq, ih]
      constructor
      · rintro ⟨rfl, t, rfl⟩
        exact ⟨t, rfl⟩
      · rintro ⟨t, h⟩
        injection h with h1 h2
        exact ⟨h1, t, h2⟩

theorem occStarts_mem_of_decomp {sep k r cs : List Char}
    (h : cs = k ++ sep ++ r) : k.length ∈ occStarts sep cs := by
  rw [mem_occStarts]
  subst h
  constructor
  · simp [List.length_append]; omega
  · rw [List.append_assoc, List.drop_left]
    exact isPrefixOf_iff_exists.mpr ⟨r, rfl⟩

theorem occStarts_decomp {sep cs : List Char} {j : Nat}
    (hj : j ∈ occStarts sep cs) :
    ∃ t, cs = cs.take j ++ sep ++ t ∧ (cs.take j).length = j := by
  rw [mem_occStarts] at hj
  obtain ⟨hlt, hpre⟩ := hj
  rw [isPrefixOf_iff_exists] at hpre
  obtain ⟨t, ht⟩ := hpre
  refine ⟨t, ?_, ?_⟩
  · conv_lhs => rw [← List.take_append_drop j cs]
    rw [List.append_assoc, ht]
  · rw [List.length_take]
    omega

theorem rsplit0_of_last_occ {sep s : String} {k r : List Char}
    (hd : s.toList = k ++ sep.toList ++ r)
    (hlast : ∀ k' r' : List Char,
      s.toList = k' ++ sep.toList ++ r' → k'.length ≤ k.length) :
    rsplit0 sep s = String.mk k := by
  have hmem : k.length ∈ occStarts sep.toList s.toList :=
    occStarts_mem_of_decomp hd
  have hmax : ∀ j ∈ occStarts sep.toList s.toList, j ≤ k.length := by
    intro j hj
    obtain ⟨t, ht, hlen⟩ := occStarts_decomp hj
    have := hlast _ _ ht
    omega
  have hgl : (occStarts sep.toList s.toList).getLast? = some k.length :=
    getLast?_eq_of_max (occStarts_pairwise _ _) hmem hmax
  simp only [rsplit0, hgl]
  congr 1
  rw [hd, List.append_assoc, List.take_left]

theorem rsplit0_of_no_occ {sep s : String} (h : isSubstrOf sep s = false) :
    rsplit0 sep s = s := by
  have hocc : occStarts sep.toList s.toList = [] := by
    rw [occStarts, List.filter_eq_nil_iff]
    intro a ha hpa
    rw [isSubstrOf] at h
    exact (List.any_eq_false.mp h) a ha hpa
  have hocc' : occStarts sep.data s.data = [] := hocc
  simp [rsplit0, hocc, hocc']

theorem occStarts_single_last {c : Char} {pre post cs : List Char}
    (hd : cs = pre ++ c :: post) (hl : post.contains c = false) :
    (occStarts [c] cs).getLast? = some pre.length := by
  have hd' : cs = pre ++ [c] ++ post := by simpa using hd
  have hmem : pre.length ∈ occStarts [c] cs := occStarts_mem_of_decomp hd'
  have hmax : ∀ j ∈ occStarts [c] cs, j ≤ pre.length := by
    intro j hj
    obtain ⟨t, ht, hlen⟩ := occStarts_decomp hj
    by_contra hgt
    have hjp : pre.length + 1 ≤ j := by omega
    have hcj : cs[j]? = some c := by
      rw [ht, List.append_assoc, List.getElem?_append_right (by omega)]
      simp [hlen]
    have hcpost : post[j - pre.length - 1]? = some c := by
      rw [hd, List.getElem?_append_right (by omega)] at hcj
      have hm : j - pre.length = (j - pre.length - 1) + 1 := by omega
      rwa [hm, List.getElem?_cons_succ] at hcj
    have hmemc : c ∈ post := List.getElem?_mem hcpost
    exact absurd hmemc (by simpa using hl)
  exact getLast?_eq_of_max (occStarts_pairwise _ _) hmem hmax

/-! ## Claims about the brand key derivation -/

/-- Claim C2, counterexample: `"Brand_LOGO1.png"` and `"Brand_logo2.png"`
differ only in the case of the `_logo` marker, yet land in *different*
groups — the marker is detected case-insensitively but the split is
performed case-sensitively on the original stem, so the uppercase-marker
stem keeps its whole stem as brand key. -/
theorem group_by_brand_marker_case_counterexample :
    group_by_brand ["Brand_LOGO1.png", "Brand_logo2.png"] =
      [⟨"Brand", ["Brand_logo2.png"]⟩, ⟨"Brand LOGO1", ["Brand_LOGO1.png"]⟩] ∧
    (group_by_brand ["Brand_LOGO1.png", "Brand_logo2.png"]).length ≠ 1 := by
  constructor
  · decide
  · decide

/-- Claim C2 (amended): when the lowered stem contains `"_logo"`, the
brand key is everything before the last *case-sensitive* occurrence of
`"_logo"` in the original stem — and when the marker occurs only in a
different case, the brand key is the whole stem. -/
theorem brandKey_marker_rule (fn : String)
    (h : isSubstrOf "_logo" (pyLower (pyStem fn)) = true) :
    (∀ k r : List Char,
      (pyStem fn).toList = k ++ "_logo".toList ++ r →
      (∀ k' r' : List Char,
        (pyStem fn).toList = k' ++ "_logo".toList ++ r' →
        k'.length ≤ k.length) →
      brandKey fn = String.mk k) ∧
    (isSubstrOf "_logo" (pyStem fn) = false → brandKey fn = pyStem fn) := by
  constructor
  · intro k r hd hlast
    rw [brandKey, brandKeyOfStem, if_pos h]
    exact rsplit0_of_last_occ hd hlast
  · intro hno
    rw [brandKey, brandKeyOfStem, if_pos h]
    exact rsplit0_of_no_occ hno

/-- Witness for the amended claim C2 at the uppercase-marker example. -/
theorem brandKey_marker_rule_witness :
    (isSubstrOf "_logo" (pyLower (pyStem "Brand_LOGO1.png")) = true ∧
     isSubstrOf "_logo" (pyStem "Brand_LOGO1.png") = false) ∧
    brandKey "Brand_LOGO1.png" = pyStem "Brand_LOGO1.png" :=
  ⟨⟨by decide, by decide⟩,
    (brandKey_marker_rule "Brand_LOGO1.png" (by decide)).2 (by decide)⟩

/-- Claim C6: when the stem has no (case-insensitive) `_logo` marker, the
stem is split on its last underscore; the part before it is the brand key
exactly when the part after it is a nonempty all-digit run, and the whole
stem otherwise; in particular `"Acme_3.png"` yields the group `"Acme"` and
`"Acme_West.png"` the group `"Acme West"`. -/
theorem brandKey_underscore_rule (fn : String) (pre post : List Char)
    (hm : isSubstrOf "_logo" (pyLower (pyStem fn)) = false)
    (hd : (pyStem fn).toList = pre ++ '_' :: post)
    (hl : post.contains '_' = false) :
    (brandKey fn =
      if post ≠ [] ∧ post.all Char.isDigit then String.mk pre
      else pyStem fn) ∧
    group_by_brand ["Acme_3.png"] = [⟨"Acme", ["Acme_3.png"]⟩] ∧
    group_by_brand ["Acme_West.png"] = [⟨"Acme West", ["Acme_West.png"]⟩] := by
  refine ⟨?_, by decide, by decide⟩
  have hocc : (occStarts ['_'] (pyStem fn).toList).getLast? = some pre.length :=
    occStarts_single_last hd hl
  have htake : (pyStem fn).toList.take pre.length = pre := by
    rw [hd]; exact List.take_left pre ('_' :: post)
  have hdrop : (pyStem fn).toList.drop (pre.length + 1) = post := by
    rw [hd, ← List.singleton_append, ← List.append_assoc]
    exact List.drop_left' (by simp)
  rw [brandKey, brandKeyOfStem, if_neg (by simp [hm])]
  simp only [hocc, htake, hdrop]

/-! ## Grouper invariants -/

/-- The keys of the insertion-ordered group map. -/
def keysOf (g : List (String × List String)) : List String :=
  g.map Prod.fst

/-- Well-formedness of the group map: keys are distinct, every bucket is
nonempty, and every file sits in the bucket of its own brand key. -/
def WFGroups (g : List (String × List String)) : Prop :=
  (keysOf g).Nodup ∧ ∀ p ∈ g, p.2 ≠ [] ∧ ∀ fn ∈ p.2, brandKey fn = p.1

theorem keysOf_insertFile (g : List (String × List String)) (k fn : String) :
    keysOf (insertFile g k fn) =
      if k ∈ keysOf g then keysOf g else keysOf g ++ [k] := by
  induction g with
  | nil => simp [insertFile, keysOf]
  | cons p rest ih =>
    obtain ⟨k', fs⟩ := p
    by_cases hk : k' = k
    · subst hk
      simp [insertFile, keysOf]
    · simp only [insertFile, if_neg hk, keysOf, List.map_cons] at ih ⊢
      rw [ih]
      by_cases hmem : k ∈ keysOf rest
      · simp [keysOf] at hmem
        simp [hmem, Ne.symm hk]
      · simp [keysOf] at hmem
        simp [hmem, Ne.symm hk]

theorem WFGroups_insertFile {k fn : String} (hk : brandKey fn = k) :
    ∀ {g : List (String × List String)}, WFGroups g →
    WFGroups (insertFile g k fn) := by
  intro g
  induction g with
  | nil =>
    intro _
    constructor
    · simp [insertFile, keysOf]
    · intro p hp
      simp only [insertFile, List.mem_singleton] at hp
      subst hp
      exact ⟨by simp, by simpa using hk⟩
  | cons q rest ih =>
    intro hw
    obtain ⟨k', fs⟩ := q
    have hnd := hw.1
    have hprop := hw.2
    have hnd' : k' ∉ keysOf rest ∧ (keysOf rest).Nodup :=
      List.nodup_cons.mp (by simpa [keysOf] using hnd)
    by_cases hkk : k' = k
    · subst hkk
      rw [show insertFile ((k', fs) :: rest) k' fn = (k', fs ++ [fn]) :: rest
        by simp [insertFile]]
      constructor
      · simpa [keysOf] using hnd
      · intro p hp
        rcases List.mem_cons.mp hp with rfl | hp'
        · refine ⟨by simp, ?_⟩
          intro x hx
          rcases List.mem_append.mp hx with hx' | hx'
          · exact (hprop (k', fs) (by simp)).2 x hx'
          · simp only [List.mem_singleton] at hx'
            subst hx'
            exact hk
        · exact hprop p (by simp [hp'])
    · rw [show insertFile ((k', fs) :: rest) k fn =
          (k', fs) :: insertFile rest k fn by simp [insertFile, hkk]]
      have ihw : WFGroups (insertFile rest k fn) :=
        ih ⟨hnd'.2, fun q hq => hprop q (by simp [hq])⟩
      constructor
      · have hkeys : keysOf ((k', fs) :: insertFile rest k fn) =
            k' :: keysOf (insertFile rest k fn) := by simp [keysOf]
        rw [hkeys, List.nodup_cons]
        refine ⟨?_, ihw.1⟩
        rw [keysOf_insertFile]
        by_cases hmem : k ∈ keysOf rest
        · simpa [hmem] using hnd'.1
        · simp only [if_neg hmem]
          intro hcon
          rcases List.mem_append.mp hcon with h | h
          · exact hnd'.1 h
          · simp only [List.mem_singleton] at h
            exact hkk h
      · intro p hp
        rcases List.mem_cons.mp hp with rfl | hp'
        · exact hprop _ (by simp)
        · exact ihw.2 p hp'

theorem flatten_insertFile (g : List (String × List String)) (k fn : String) :
    List.Perm ((insertFile g k fn).map Prod.snd).flatten
      ((g.map Prod.snd).flatten ++ [fn]) := by
  induction g with
  | nil => simp [insertFile]
  | cons p rest ih =>
    obtain ⟨k', fs⟩ := p
    by_cases hk : k' = k
    · subst hk
      rw [show insertFile ((k', fs) :: rest) k' fn = (k', fs ++ [fn]) :: rest
        by simp [insertFile]]
      simp only [List.map_cons, List.flatten_cons]
      rw [List.append_assoc, List.append_assoc]
      exact List.Perm.append_left fs
        (@List.perm_append_comm String [fn] ((rest.map Prod.snd).flatten))
    · simp only [insertFile, if_neg hk, List.map_cons, List.flatten_cons]
      rw [List.append_assoc]
      exact List.Perm.append_left fs ih

theorem WFGroups_foldl :
    ∀ (l : List String) (g : List (String × List String)), WFGroups g →
    WFGroups (l.foldl (fun g fn => insertFile g (brandKey fn) fn) g) := by
  intro l
  induction l with
  | nil => intro g hg; exact hg
  | cons fn l ih =>
    intro g hg
    exact ih _ (WFGroups_insertFile rfl hg)

theorem WFGroups_buildGroups (fns : List String) : WFGroups (buildGroups fns) :=
  WFGroups_foldl fns [] ⟨List.nodup_nil, by simp⟩

theorem flatten_foldl_insertFile :
    ∀ (l : List String) (g : List (String × List String)),
    List.Perm
      ((l.foldl (fun g fn => insertFile g (brandKey fn) fn) g).map
        Prod.snd).flatten
      ((g.map Prod.snd).flatten ++ l) := by
  intro l
  induction l with
  | nil => intro g; simp
  | cons fn l ih =>
    intro g
    refine (ih _).trans ?_
    refine (List.Perm.append_right l (flatten_insertFile g (brandKey fn) fn)).trans ?_
    rw [List.append_assoc, List.singleton_append]

theorem flatten_buildGroups (fns : List String) :
    List.Perm ((buildGroups fns).map Prod.snd).flatten fns := by
  have h := flatten_foldl_insertFile fns []
  simpa [buildGroups] using h

theorem countP_contains_of_WF {fn : String} :
    ∀ {g : List (String × List String)}, WFGroups g →
    g.countP (fun p => p.2.contains fn) =
      if fn ∈ (g.map Prod.snd).flatten then 1 else 0 := by
  intro g
  induction g with
  | nil => intro _; simp
  | cons p rest ih =>
    intro hw
    obtain ⟨k, fs⟩ := p
    have hnd' : k ∉ keysOf rest ∧ (keysOf rest).Nodup :=
      List.nodup_cons.mp (by simpa [keysOf] using hw.1)
    have hwrest : WFGroups rest :=
      ⟨hnd'.2, fun q hq => hw.2 q (by simp [hq])⟩
    have hflat : (((k, fs) :: rest).map Prod.snd).flatten =
        fs ++ (rest.map Prod.snd).flatten := by simp
    rw [List.countP_cons, ih hwrest, hflat]
    by_cases hfn : fn ∈ fs
    · have hc : (fun p : String × List String => p.2.contains fn) (k, fs) = true := by
        simpa using hfn
      have hrest0 : fn ∉ (rest.map Prod.snd).flatten := by
        intro hmem
        obtain ⟨l, hl, hfl⟩ := List.mem_flatten.mp hmem
        obtain ⟨q, hq, hql⟩ := List.mem_map.mp hl
        have h1 : brandKey fn = q.1 := (hw.2 q (by simp [hq])).2 fn (hql ▸ hfl)
        have h2 : brandKey fn = k := (hw.2 (k, fs) (by simp)).2 fn hfn
        have hq1 : q.1 = k := by rw [← h1, h2]
        exact hnd'.1 (List.mem_map.mpr ⟨q, hq, hq1⟩)
      simp [hc, hrest0, hfn]
    · have hc : (fun p : String × List String => p.2.contains fn) (k, fs) = false := by
        simpa using hfn
      by_cases hmem : fn ∈ (rest.map Prod.snd).flatten
      · simp [hc, hfn, hmem]
      · simp [hc, hfn, hmem]

/-! ## Sorting lemmas -/

/-- The sortedness invariant of the output order: ascending in the
case-folded display names. -/
def GSorted (l : List (String × List String)) : Prop :=
  l.Pairwise (fun a b => keyStr a ≤ keyStr b)

theorem insGroup_perm (x : String × List String) :
    ∀ l : List (String × List String), List.Perm (insGroup x l) (x :: l) := by
  intro l
  induction l with
  | nil => simp [insGroup]
  | cons y ys ih =>
    rw [insGroup]
    by_cases h : keyLtB x y = true
    · rw [if_pos h]
    · rw [if_neg h]
      exact (ih.cons y).trans (List.Perm.swap x y ys)

theorem mem_insGroup {z x : String × List String}
    {l : List (String × List String)} (hz : z ∈ insGroup x l) :
    z = x ∨ z ∈ l := by
  have := (insGroup_perm x l).mem_iff.mp hz
  simpa using this

theorem insGroup_sorted {x : String × List String} :
    ∀ {l : List (String × List String)}, GSorted l → GSorted (insGroup x l) := by
  intro l
  induction l with
  | nil => intro _; simp [insGroup, GSorted]
  | cons y ys ih =>
    intro hs
    have hy : ∀ z ∈ ys, keyStr y ≤ keyStr z := (List.pairwise_cons.mp hs).1
    have hys : GSorted ys := (List.pairwise_cons.mp hs).2
    rw [insGroup]
    by_cases h : keyLtB x y = true
    · rw [if_pos h]
      have hxy : keyStr x < keyStr y := (keyLtB_iff x y).mp h
      exact List.pairwise_cons.mpr
        ⟨fun z hz => by
          rcases List.mem_cons.mp hz with rfl | hz'
          · exact le_of_lt hxy
          · exact le_trans (le_of_lt hxy) (hy z hz'), hs⟩
    · rw [if_neg h]
      have hyx : keyStr y ≤ keyStr x :=
        (keyLtB_eq_false_iff x y).mp (by simpa using h)
      exact List.pairwise_cons.mpr
        ⟨fun z hz => by
          rcases mem_insGroup hz with rfl | hz'
          · exact hyx
          · exact hy z hz', ih hys⟩

theorem sortGroups_perm (l : List (String × List String)) :
    List.Perm (sortGroups l) l := by
  have haux : ∀ (l acc : List (String × List String)),
      List.Perm (l.foldl (fun a x => insGroup x a) acc) (acc ++ l) := by
    intro l
    induction l with
    | nil => intro acc; simp
    | cons x l ih =>
      intro acc
      refine (ih _).trans ?_
      refine (List.Perm.append_right l (insGroup_perm x acc)).trans ?_
      exact List.perm_middle.symm
  simpa [sortGroups] using haux l []

theorem sortGroups_sorted (l : List (String × List String)) :
    GSorted (sortGroups l) := by
  have haux : ∀ (l acc : List (String × List String)), GSorted acc →
      GSorted (l.foldl (fun a x => insGroup x a) acc) := by
    intro l
    induction l with
    | nil => intro acc h; exact h
    | cons x l ih => intro acc h; exact ih _ (insGroup_sorted h)
  exact haux l [] (by simp [GSorted])

theorem insGroup_of_ge {x : String × List String} :
    ∀ {l : List (String × List String)},
    (∀ y ∈ l, keyLtB x y = false) → insGroup x l = l ++ [x] := by
  intro l
  induction l with
  | nil => intro _; rfl
  | cons y ys ih =>
    intro h
    rw [insGroup, if_neg (by simp [h y (by simp)])]
    rw [ih fun z hz => h z (by simp [hz])]
    rfl

theorem sortGroups_of_sorted {l : List (String × List String)}
    (hs : GSorted l) : sortGroups l = l := by
  have haux : ∀ (l acc : List (String × List String)),
      GSorted (acc ++ l) → l.foldl (fun a x => insGroup x a) acc = acc ++ l := by
    intro l
    induction l with
    | nil => intro acc _; simp
    | cons x l ih =>
      intro acc h
      have hins : insGroup x acc = acc ++ [x] := by
        apply insGroup_of_ge
        intro y hy
        have hle : keyStr y ≤ keyStr x :=
          ((List.pairwise_append.mp h).2.2 y hy x (by simp))
        exact (keyLtB_eq_false_iff x y).mpr hle
      rw [List.foldl_cons, hins, ih (acc ++ [x]) (by simpa using h)]
      simp
  simpa [sortGroups] using haux l [] (by simpa using hs)

/-! ## Regrouping a grouped output -/

theorem foldl_insertFile_same_key {k : String} :
    ∀ (fs : List String) (a : List String)
      (g : List (String × List String)),
    (∀ f ∈ fs, brandKey f = k) →
    fs.foldl (fun g fn => insertFile g (brandKey fn) fn) ((k, a) :: g) =
      (k, a ++ fs) :: g := by
  intro fs
  induction fs with
  | nil => intro a g _; simp
  | cons f fs ih =>
    intro a g h
    have hf : brandKey f = k := h f (by simp)
    rw [List.foldl_cons, hf,
      show insertFile ((k, a) :: g) k f = (k, a ++ [f]) :: g by simp [insertFile],
      ih (a ++ [f]) g (fun x hx => h x (by simp [hx]))]
    simp

theorem insertFile_append_left {k fn : String}
    {g₁ g₂ : List (String × List String)} (hk : k ∉ keysOf g₁) :
    insertFile (g₁ ++ g₂) k fn = g₁ ++ insertFile g₂ k fn := by
  induction g₁ with
  | nil => rfl
  | cons p g₁ ih =>
    obtain ⟨k', fs⟩ := p
    have hkk : k' ≠ k := by
      intro h
      exact hk (by simp [keysOf, h])
    rw [List.cons_append,
      show insertFile ((k', fs) :: (g₁ ++ g₂)) k fn =
        (k', fs) :: insertFile (g₁ ++ g₂) k fn by simp [insertFile, hkk],
      ih (fun h => hk (by simp [keysOf] at h ⊢; exact Or.inr h))]
    rfl

theorem foldl_insertFile_append :
    ∀ (l : List String) (g₁ g₂ : List (String × List String)),
    (∀ fn ∈ l, brandKey fn ∉ keysOf g₁) →
    l.foldl (fun g fn => insertFile g (brandKey fn) fn) (g₁ ++ g₂) =
      g₁ ++ l.foldl (fun g fn => insertFile g (brandKey fn) fn) g₂ := by
  intro l
  induction l with
  | nil => intro g₁ g₂ _; rfl
  | cons fn l ih =>
    intro g₁ g₂ h
    rw [List.foldl_cons, insertFile_append_left (h fn (by simp)),
      ih g₁ _ (fun x hx => h x (by simp [hx])), List.foldl_cons]

theorem buildGroups_flatten_of_WF :
    ∀ {P : List (String × List String)}, WFGroups P →
    buildGroups ((P.map Prod.snd).flatten) = P := by
  intro P
  induction P with
  | nil => intro _; rfl
  | cons p rest ih =>
    intro hw
    obtain ⟨k, fs⟩ := p
    have hnd' : k ∉ keysOf rest ∧ (keysOf rest).Nodup :=
      List.nodup_cons.mp (by simpa [keysOf] using hw.1)
    have hwrest : WFGroups rest :=
      ⟨hnd'.2, fun q hq => hw.2 q (by simp [hq])⟩
    have hfs : ∀ f ∈ fs, brandKey f = k := (hw.2 (k, fs) (by simp)).2
    have hne : fs ≠ [] := (hw.2 (k, fs) (by simp)).1
    obtain ⟨f, fs', rfl⟩ := List.exists_cons_of_ne_nil hne
    have hflat : (((k, f :: fs') :: rest).map Prod.snd).flatten =
        (f :: fs') ++ (rest.map Prod.snd).flatten := by simp
    rw [hflat]
    rw [buildGroups, List.foldl_append]
    have hhead : (f :: fs').foldl
        (fun g fn => insertFile g (brandKey fn) fn) [] = [(k, f :: fs')] := by
      rw [List.foldl_cons, hfs f (by simp),
        show insertFile [] k f = [(k, [f])] from rfl,
        foldl_insertFile_same_key fs' [f] [] (fun x hx => hfs x (by simp [hx]))]
      rfl
    rw [hhead]
    have hrestkeys : ∀ fn ∈ (rest.map Prod.snd).flatten,
        brandKey fn ∉ keysOf [(k, f :: fs')] := by
      intro fn hmem
      obtain ⟨l, hl, hfl⟩ := List.mem_flatten.mp hmem
      obtain ⟨q, hq, hql⟩ := List.mem_map.mp hl
      have h1 : brandKey fn = q.1 := (hwrest.2 q hq).2 fn (hql ▸ hfl)
      have hq1 : q.1 ∈ keysOf rest := List.mem_map.mpr ⟨q, hq, rfl⟩
      intro hcon
      simp only [keysOf, List.map_cons, List.map_nil,
        List.mem_singleton] at hcon
      rw [← h1, hcon] at hq1
      exact hnd'.1 hq1
    rw [show ([(k, f :: fs')] : List (String × List String)) =
        [(k, f :: fs')] ++ [] from (List.append_nil _).symm,
      foldl_insertFile_append _ _ _ hrestkeys]
    have := ih hwrest
    rw [buildGroups] at this
    rw [this]
    simp

/-! ## Claims about the Brand Grouper -/

/-- Claim C3: `group_by_brand` partitions its input — the concatenation of
the groups' file lists is a permutation of the input, and every input
filename belongs to exactly one group (and a non-input filename to none). -/
theorem group_by_brand_partition (fns : List String) :
    List.Perm ((group_by_brand fns).map BrandGroup.files).flatten fns ∧
    ∀ fn : String,
      (group_by_brand fns).countP (fun g => g.files.contains fn) =
        if fn ∈ fns then 1 else 0 := by
  have hmap : (group_by_brand fns).map BrandGroup.files =
      (sortGroups (buildGroups fns)).map Prod.snd := by
    rw [group_by_brand, List.map_map]
    rfl
  constructor
  · rw [hmap]
    exact (((sortGroups_perm (buildGroups fns)).map Prod.snd).flatten).trans
      (flatten_buildGroups fns)
  · intro fn
    have hc1 : (group_by_brand fns).countP (fun g => g.files.contains fn) =
        (sortGroups (buildGroups fns)).countP (fun p => p.2.contains fn) := by
      rw [group_by_brand, List.countP_map]
      rfl
    have hc2 : (sortGroups (buildGroups fns)).countP
          (fun p => p.2.contains fn) =
        (buildGroups fns).countP (fun p => p.2.contains fn) :=
      List.Perm.countP_eq _ (sortGroups_perm (buildGroups fns))
    rw [hc1, hc2, countP_contains_of_WF (WFGroups_buildGroups fns)]
    have hiff : fn ∈ ((buildGroups fns).map Prod.snd).flatten ↔ fn ∈ fns :=
      (flatten_buildGroups fns).mem_iff
    by_cases h : fn ∈ fns
    · rw [if_pos (hiff.mpr h), if_pos h]
    · rw [if_neg (fun hc => h (hiff.mp hc)), if_neg h]

/-- Claim C7: the groups come out sorted ascending by display name
compared case-insensitively, as on the spec's example. -/
theorem group_by_brand_sorted (fns : List String) :
    (group_by_brand fns).Pairwise
      (fun a b => pyLower a.brand ≤ pyLower b.brand) ∧
    group_by_brand ["zeta_logo1.png", "Alpha_logo1.png"] =
      [⟨"Alpha", ["Alpha_logo1.png"]⟩, ⟨"zeta", ["zeta_logo1.png"]⟩] := by
  constructor
  · rw [group_by_brand, List.pairwise_map]
    exact (sortGroups_sorted (buildGroups fns)).imp fun h => h
  · decide

/-- Claim C9: grouping is idempotent — regrouping the concatenated file
lists of a previous grouping yields the identical group list. -/
theorem group_by_brand_idempotent (fns : List String) :
    group_by_brand (((group_by_brand fns).map BrandGroup.files).flatten) =
      group_by_brand fns := by
  have hmap : (group_by_brand fns).map BrandGroup.files =
      (sortGroups (buildGroups fns)).map Prod.snd := by
    rw [group_by_brand, List.map_map]
    rfl
  have hWFS : WFGroups (sortGroups (buildGroups fns)) := by
    have hP := sortGroups_perm (buildGroups fns)
    have hWF := WFGroups_buildGroups fns
    constructor
    · exact ((hP.map Prod.fst).nodup_iff).mpr hWF.1
    · intro p hp
      exact hWF.2 p (hP.mem_iff.mp hp)
  have h1 : buildGroups
        (((sortGroups (buildGroups fns)).map Prod.snd).flatten) =
      sortGroups (buildGroups fns) := buildGroups_flatten_of_WF hWFS
  have h2 : sortGroups (sortGroups (buildGroups fns)) =
      sortGroups (buildGroups fns) :=
    sortGroups_of_sorted (sortGroups_sorted _)
  calc group_by_brand (((group_by_brand fns).map BrandGroup.files).flatten)
      = (sortGroups (buildGroups
          (((sortGroups (buildGroups fns)).map Prod.snd).flatten))).map
            toGroup := by rw [hmap]; rfl
    _ = (sortGroups (buildGroups fns)).map toGroup := by rw [h1, h2]
    _ = group_by_brand fns := rfl

/-- Witness for claim C6 at the digit-suffix example. -/
theorem brandKey_underscore_rule_witness :
    ((isSubstrOf "_logo" (pyLower (pyStem "Acme_3.png")) = false) ∧
     ((pyStem "Acme_3.png").toList = ['A', 'c', 'm', 'e'] ++ '_' :: ['3']) ∧
     (['3'] : List Char).contains '_' = false) ∧
    ((brandKey "Acme_3.png" =
        if (['3'] : List Char) ≠ [] ∧ (['3'] : List Char).all Char.isDigit
        then String.mk ['A', 'c', 'm', 'e'] else pyStem "Acme_3.png") ∧
     group_by_brand ["Acme_3.png"] = [⟨"Acme", ["Acme_3.png"]⟩] ∧
     group_by_brand ["Acme_West.png"] = [⟨"Acme West", ["Acme_West.png"]⟩]) :=
  ⟨⟨by decide, by decide, by decide⟩,
    brandKey_underscore_rule "Acme_3.png" ['A', 'c', 'm', 'e'] ['3']
      (by decide) (by decide) (by decide)⟩
